import Mathlib

/-!
Verification of the Connect Four engine (`connect_four/board.py`,
`connect_four/player_auto.py`) by a shallow embedding of its data model
and operations.

Conventions of the embedding:
* Python strings holding tokens become `Char` (`'O'`, `'X'`, blank `' '`).
* Fallible operations (Python `raise`) become `Except String _`.
* Machine integers are `Int`/`Nat`; the board's row bookkeeping uses `Int`
  because `_available_rows` entries reach `-1`.
* Cell configuration `_config` is a total function `Int → Int → Char`;
  all writes performed by the code stay inside the board rectangle, and
  reachable boards are blank outside it.
-/

/-! ## Score (`player_auto.py`, class `Score`) -/

inductive ScoreType where
  | invalid
  | losing
  | neutral
  | winning
deriving DecidableEq, Repr

/-- A `Score` as built by `Score.__init__`: the validated `score_type`
tag together with the (optional) `score_val` payload. -/
structure Score where
  score_type : ScoreType
  score_val : Option Int
deriving DecidableEq, Repr

/-- `Score.__init__`: the `score_type` setter admits exactly the four tags
(the inductive type makes other tags unrepresentable); the `score_val`
setter raises `TypeError` when the tag is `losing`/`winning` and the
payload is not an `int` (i.e. is `None` here). No check is made for
`invalid`/`neutral` payloads. -/
def Score.make (ty : ScoreType) (val : Option Int) : Except String Score :=
  if (ty = ScoreType.losing ∨ ty = ScoreType.winning) ∧ val = none then
    Except.error "TypeError: expected score_val to be type int"
  else
    Except.ok ⟨ty, val⟩

/-- A `Score` value constructible by the Python class: `losing`/`winning`
carry an integer payload. -/
def Score.WF (s : Score) : Prop :=
  (s.score_type = ScoreType.losing ∨ s.score_type = ScoreType.winning) →
    s.score_val ≠ none

/-- `Score.__lt__`.  The payload reads (`self.score_val < other.score_val`)
only happen when both sides are `losing` or both are `winning`, where
constructible scores always carry `some _`; `Option.getD 0` stands for the
guaranteed integer payload there. -/
def Score.ltb (x y : Score) : Bool :=
  match x.score_type with
  | ScoreType.invalid => decide (y.score_type ≠ ScoreType.invalid)
  | ScoreType.losing =>
      decide (y.score_type = ScoreType.neutral ∨ y.score_type = ScoreType.winning)
      || (decide (y.score_type = ScoreType.losing)
          && decide (x.score_val.getD 0 < y.score_val.getD 0))
  | ScoreType.neutral => decide (y.score_type = ScoreType.winning)
  | ScoreType.winning =>
      decide (y.score_type = ScoreType.winning)
      && decide (y.score_val.getD 0 < x.score_val.getD 0)

/-- `Score.__gt__`: `other.__lt__(self)`. -/
def Score.gtb (x y : Score) : Bool := Score.ltb y x

/-- `Score.__ge__`: `not self.__lt__(other)`. -/
def Score.geb (x y : Score) : Bool := !(Score.ltb x y)

/-- `Score.__le__`: `other.__ge__(self)`. -/
def Score.leb (x y : Score) : Bool := !(Score.ltb y x)

/-- `Score.__eq__`: `self.__le__(other) and self.__ge__(other)`. -/
def Score.eqb (x y : Score) : Bool := Score.leb x y && Score.geb x y

/-- `Score._reverse`.  As with `ltb`, `Option.getD 0` stands for the
integer payload that `losing` scores always carry. -/
def Score.reverseScore (s : Score) : Score :=
  match s.score_type with
  | ScoreType.invalid => ⟨ScoreType.neutral, some 0⟩
  | ScoreType.neutral => ⟨ScoreType.neutral, some 0⟩
  | ScoreType.losing => ⟨ScoreType.winning, some (s.score_val.getD 0 + 1)⟩
  | ScoreType.winning => ⟨ScoreType.losing, s.score_val⟩

/-! ### Order helpers: the comparison is the lexicographic order on the
rank of the tag and a signed payload. -/

def Score.rank (ty : ScoreType) : Nat :=
  match ty with
  | ScoreType.invalid => 0
  | ScoreType.losing => 1
  | ScoreType.neutral => 2
  | ScoreType.winning => 3

def Score.sval (s : Score) : Int :=
  match s.score_type with
  | ScoreType.losing => s.score_val.getD 0
  | ScoreType.winning => -(s.score_val.getD 0)
  | _ => 0

theorem Score.ltb_iff (x y : Score) :
    Score.ltb x y = true ↔
      (Score.rank x.score_type < Score.rank y.score_type ∨
        (Score.rank x.score_type = Score.rank y.score_type ∧
          Score.sval x < Score.sval y)) := by
  rcases x with ⟨tx, vx⟩
  rcases y with ⟨ty, vy⟩
  cases tx <;> cases ty <;>
    simp [Score.ltb, Score.rank, Score.sval]

theorem Score.ltb_irrefl (x : Score) : Score.ltb x x = false := by
  cases hx : Score.ltb x x
  · rfl
  · exfalso
    have h := (Score.ltb_iff x x).mp hx
    omega

theorem Score.ltb_trans {x y z : Score} (hxy : Score.ltb x y = true)
    (hyz : Score.ltb y z = true) : Score.ltb x z = true := by
  rw [Score.ltb_iff] at hxy hyz ⊢
  omega

theorem Score.ltb_asymm {x y : Score} (hxy : Score.ltb x y = true) :
    Score.ltb y x = false := by
  cases hyx : Score.ltb y x
  · rfl
  · exfalso
    rw [Score.ltb_iff] at hxy hyx
    omega

theorem Score.eqb_iff (x y : Score) :
    Score.eqb x y = true ↔
      (Score.rank x.score_type = Score.rank y.score_type ∧
        Score.sval x = Score.sval y) := by
  constructor
  · intro h
    simp only [Score.eqb, Score.leb, Score.geb, Bool.and_eq_true,
      Bool.not_eq_true'] at h
    obtain ⟨h1, h2⟩ := h
    have i1 := Score.ltb_iff y x
    have i2 := Score.ltb_iff x y
    rw [h1] at i1
    rw [h2] at i2
    simp at i1 i2
    omega
  · intro h
    simp only [Score.eqb, Score.leb, Score.geb, Bool.and_eq_true,
      Bool.not_eq_true']
    constructor
    · cases hyx : Score.ltb y x
      · rfl
      · exfalso
        rw [Score.ltb_iff] at hyx
        omega
    · cases hxy : Score.ltb x y
      · rfl
      · exfalso
        rw [Score.ltb_iff] at hxy
        omega

theorem Score.eqb_refl (x : Score) : Score.eqb x x = true := by
  rw [Score.eqb_iff]
  exact ⟨rfl, rfl⟩

theorem Score.ltb_eq_false_iff (x y : Score) :
    Score.ltb x y = false ↔
      ¬(Score.rank x.score_type < Score.rank y.score_type ∨
        (Score.rank x.score_type = Score.rank y.score_type ∧
          Score.sval x < Score.sval y)) := by
  rw [← Score.ltb_iff]
  cases Score.ltb x y <;> simp

theorem Score.eqb_eq_false_iff (x y : Score) :
    Score.eqb x y = false ↔
      ¬(Score.rank x.score_type = Score.rank y.score_type ∧
        Score.sval x = Score.sval y) := by
  rw [← Score.eqb_iff]
  cases Score.eqb x y <;> simp

/-- C4 (amended): `Score` construction succeeds exactly when a
`losing`/`winning` tag comes with an integer payload; it fails with a
`TypeError` when that payload is missing.  Contrary to the original claim,
`invalid`/`neutral` accept (and store) a payload without error. -/
theorem C4_score_payload_validation :
    ∀ (ty : ScoreType) (val : Option Int),
      (Score.make ty val = Except.ok ⟨ty, val⟩ ↔
        ¬((ty = ScoreType.losing ∨ ty = ScoreType.winning) ∧ val = none)) ∧
      (((ty = ScoreType.losing ∨ ty = ScoreType.winning) ∧ val = none) →
        ∃ msg, Score.make ty val = Except.error msg) := by
  intro ty val
  refine ⟨⟨fun h hcond => ?_, fun h => ?_⟩, fun h => ?_⟩
  · rw [Score.make, if_pos hcond] at h
    exact absurd h (by simp)
  · rw [Score.make, if_neg h]
  · refine ⟨"TypeError: expected score_val to be type int", ?_⟩
    rw [Score.make, if_pos h]

/-- C4 counterexample: the claim as stated says constructing `Invalid` or
`Neutral` with a payload fails; in the code both constructions succeed
(the code's own `Score._reverse` builds `Score("neutral", 0)`). -/
theorem C4_counterexample :
    Score.make ScoreType.neutral (some 0) =
      Except.ok ⟨ScoreType.neutral, some 0⟩ ∧
    Score.make ScoreType.invalid (some 5) =
      Except.ok ⟨ScoreType.invalid, some 5⟩ := by
  exact ⟨rfl, rfl⟩

/-- Witness for C4: constructing `Losing` without a payload errors. -/
theorem C4_witness :
    ∃ msg, Score.make ScoreType.losing none = Except.error msg :=
  (C4_score_payload_validation ScoreType.losing none).2 ⟨Or.inl rfl, rfl⟩

/-- C6: the `Score` comparisons implement a strict total order matching
`Invalid < Losing(a) < Losing(b) < Neutral < Winning(d) < Winning(c)` for
`a < b` and `c < d`: `==` is reflexive, `<` is asymmetric and transitive,
and for every pair of (constructible) scores exactly one of `<`, `==`,
`>` holds. -/
theorem C6_score_total_order :
    (∀ x : Score, Score.eqb x x = true) ∧
    (∀ x y : Score, Score.WF x → Score.WF y →
      ¬(Score.ltb x y = true ∧ Score.ltb y x = true)) ∧
    (∀ x y z : Score, Score.WF x → Score.WF y → Score.WF z →
      Score.ltb x y = true → Score.ltb y z = true → Score.ltb x z = true) ∧
    (∀ x y : Score, Score.WF x → Score.WF y →
      (Score.ltb x y = true ∧ Score.eqb x y = false ∧ Score.gtb x y = false) ∨
      (Score.ltb x y = false ∧ Score.eqb x y = true ∧ Score.gtb x y = false) ∨
      (Score.ltb x y = false ∧ Score.eqb x y = false ∧ Score.gtb x y = true)) ∧
    (∀ a : Int,
      Score.ltb ⟨ScoreType.invalid, none⟩ ⟨ScoreType.losing, some a⟩ = true) ∧
    (∀ a b : Int,
      Score.ltb ⟨ScoreType.losing, some a⟩ ⟨ScoreType.losing, some b⟩ = true ↔
        a < b) ∧
    (∀ a : Int,
      Score.ltb ⟨ScoreType.losing, some a⟩ ⟨ScoreType.neutral, none⟩ = true) ∧
    (∀ a : Int,
      Score.ltb ⟨ScoreType.neutral, none⟩ ⟨ScoreType.winning, some a⟩ = true) ∧
    (∀ c d : Int,
      Score.ltb ⟨ScoreType.winning, some d⟩ ⟨ScoreType.winning, some c⟩ = true ↔
        c < d) := by
  refine ⟨Score.eqb_refl, ?_, fun x y z _ _ _ => Score.ltb_trans, ?_, ?_, ?_, ?_, ?_, ?_⟩
  · intro x y _ _ ⟨h1, h2⟩
    rw [Score.ltb_asymm h1] at h2
    exact absurd h2 (by simp)
  · intro x y _ _
    cases hxy : Score.ltb x y
    · cases hyx : Score.ltb y x
      · refine Or.inr (Or.inl ⟨rfl, ?_, hyx⟩)
        rw [Score.ltb_eq_false_iff] at hxy hyx
        rw [Score.eqb_iff]
        omega
      · refine Or.inr (Or.inr ⟨rfl, ?_, hyx⟩)
        rw [Score.ltb_iff] at hyx
        rw [Score.eqb_eq_false_iff]
        omega
    · refine Or.inl ⟨rfl, ?_, Score.ltb_asymm hxy⟩
      rw [Score.ltb_iff] at hxy
      rw [Score.eqb_eq_false_iff]
      omega
  · intro a
    simp [Score.ltb]
  · intro a b
    simp [Score.ltb]
  · intro a
    simp [Score.ltb]
  · intro a
    simp [Score.ltb]
  · intro c d
    simp [Score.ltb]

/-- Witness for C6: transitivity applied at
`Invalid < Neutral < Winning(2)`. -/
theorem C6_witness :
    Score.ltb ⟨ScoreType.invalid, none⟩ ⟨ScoreType.winning, some 2⟩ = true :=
  C6_score_total_order.2.2.1 ⟨ScoreType.invalid, none⟩ ⟨ScoreType.neutral, none⟩
    ⟨ScoreType.winning, some 2⟩ (by simp [Score.WF]) (by simp [Score.WF])
    (by simp [Score.WF]) (by decide) (by decide)

/-- C7: `Score._reverse` satisfies, up to `Score` equality `==`:
`reverse(Losing(n)) == Winning(n+1)`, `reverse(Winning(n)) == Losing(n)`,
`reverse(Neutral) == Neutral`, `reverse(Invalid) == Neutral(0)`. -/
theorem C7_score_reverse :
    ∀ n : Int,
      Score.eqb (Score.reverseScore ⟨ScoreType.losing, some n⟩)
        ⟨ScoreType.winning, some (n + 1)⟩ = true ∧
      Score.eqb (Score.reverseScore ⟨ScoreType.winning, some n⟩)
        ⟨ScoreType.losing, some n⟩ = true ∧
      Score.eqb (Score.reverseScore ⟨ScoreType.neutral, none⟩)
        ⟨ScoreType.neutral, none⟩ = true ∧
      Score.eqb (Score.reverseScore ⟨ScoreType.invalid, none⟩)
        ⟨ScoreType.neutral, some 0⟩ = true := by
  intro n
  refine ⟨?_, ?_, by decide, by decide⟩
  · rw [Score.eqb_iff]
    simp [Score.reverseScore, Score.rank, Score.sval]
  · rw [Score.eqb_iff]
    simp [Score.reverseScore, Score.rank, Score.sval]

/-! ## List minimum / maximum (Python `min(...)` / `max(...)` over
`_available_rows`, a nonempty list of ints) -/

def listMax : List Int → Int
  | [] => 0
  | x :: xs => xs.foldl max x

def listMin : List Int → Int
  | [] => 0
  | x :: xs => xs.foldl min x

theorem foldl_max_init_le (xs : List Int) (a : Int) : a ≤ xs.foldl max a := by
  induction xs generalizing a with
  | nil => exact le_refl a
  | cons x xs ih =>
    exact le_trans (le_max_left a x) (ih (max a x))

theorem foldl_max_le_of_mem {xs : List Int} {b : Int} (hb : b ∈ xs) (a : Int) :
    b ≤ xs.foldl max a := by
  induction xs generalizing a with
  | nil => cases hb
  | cons x xs ih =>
    rcases List.mem_cons.mp hb with rfl | hmem
    · exact le_trans (le_max_right a b) (foldl_max_init_le xs (max a b))
    · exact ih hmem (max a x)

theorem foldl_max_mem (xs : List Int) (a : Int) : xs.foldl max a ∈ a :: xs := by
  induction xs generalizing a with
  | nil => exact List.mem_singleton.mpr rfl
  | cons x xs ih =>
    have h := ih (max a x)
    rcases List.mem_cons.mp h with heq | hmem
    · rcases max_choice a x with hc | hc
      · exact List.mem_cons.mpr (Or.inl (heq.trans hc))
      · refine List.mem_cons.mpr (Or.inr ?_)
        exact List.mem_cons.mpr (Or.inl (heq.trans hc))
    · exact List.mem_cons.mpr (Or.inr (List.mem_cons.mpr (Or.inr hmem)))

theorem foldl_min_init_ge (xs : List Int) (a : Int) : xs.foldl min a ≤ a := by
  induction xs generalizing a with
  | nil => exact le_refl a
  | cons x xs ih =>
    exact le_trans (ih (min a x)) (min_le_left a x)

theorem foldl_min_ge_of_mem {xs : List Int} {b : Int} (hb : b ∈ xs) (a : Int) :
    xs.foldl min a ≤ b := by
  induction xs generalizing a with
  | nil => cases hb
  | cons x xs ih =>
    rcases List.mem_cons.mp hb with rfl | hmem
    · exact le_trans (foldl_min_init_ge xs (min a b)) (min_le_right a b)
    · exact ih hmem (min a x)

theorem foldl_min_mem (xs : List Int) (a : Int) : xs.foldl min a ∈ a :: xs := by
  induction xs generalizing a with
  | nil => exact List.mem_singleton.mpr rfl
  | cons x xs ih =>
    have h := ih (min a x)
    rcases List.mem_cons.mp h with heq | hmem
    · rcases min_choice a x with hc | hc
      · exact List.mem_cons.mpr (Or.inl (heq.trans hc))
      · refine List.mem_cons.mpr (Or.inr ?_)
        exact List.mem_cons.mpr (Or.inl (heq.trans hc))
    · exact List.mem_cons.mpr (Or.inr (List.mem_cons.mpr (Or.inr hmem)))

theorem le_listMax {l : List Int} {a : Int} (ha : a ∈ l) : a ≤ listMax l := by
  cases l with
  | nil => cases ha
  | cons x xs =>
    rcases List.mem_cons.mp ha with rfl | hmem
    · exact foldl_max_init_le xs a
    · exact foldl_max_le_of_mem hmem x

theorem listMax_mem {l : List Int} (hl : l ≠ []) : listMax l ∈ l := by
  cases l with
  | nil => exact absurd rfl hl
  | cons x xs => exact foldl_max_mem xs x

theorem listMin_le {l : List Int} {a : Int} (ha : a ∈ l) : listMin l ≤ a := by
  cases l with
  | nil => cases ha
  | cons x xs =>
    rcases List.mem_cons.mp ha with rfl | hmem
    · exact foldl_min_init_ge xs a
    · exact foldl_min_ge_of_mem hmem x

theorem listMin_mem {l : List Int} (hl : l ≠ []) : listMin l ∈ l := by
  cases l with
  | nil => exact absurd rfl hl
  | cons x xs => exact foldl_min_mem xs x

theorem mem_set_self {l : List Int} {i : Nat} (hi : i < l.length) (v : Int) :
    v ∈ l.set i v := by
  refine List.mem_iff_getElem.mpr ⟨i, ?_, ?_⟩
  · simpa using hi
  · simp [List.getElem_set]

theorem mem_set_of_ne {l : List Int} {i j : Nat} (hj : j < l.length)
    (hne : j ≠ i) (v : Int) : l[j] ∈ l.set i v := by
  have hij : ¬ i = j := fun h => hne h.symm
  refine List.mem_iff_getElem.mpr ⟨j, ?_, ?_⟩
  · simpa using hj
  · simp [List.getElem_set, hij]

theorem listMax_set {l : List Int} {i : Nat} (hi : i < l.length) (v : Int)
    (hv : l.getD i 0 ≤ v) : listMax (l.set i v) = max (listMax l) v := by
  have hne : l ≠ [] := by
    intro h
    subst h
    simp at hi
  have hne' : l.set i v ≠ [] := by
    intro h
    have hlen0 : (l.set i v).length = 0 := by rw [h]; rfl
    rw [List.length_set] at hlen0
    omega
  apply le_antisymm
  · rcases List.mem_or_eq_of_mem_set (listMax_mem hne') with hmem' | heq
    · exact le_trans (le_listMax hmem') (le_max_left _ _)
    · rw [heq]
      exact le_max_right _ _
  · apply max_le
    · rcases List.mem_iff_getElem.mp (listMax_mem hne) with ⟨j, hj, hgj⟩
      by_cases hji : j = i
      · subst hji
        have h1 : l.getD j 0 = l[j] := List.getD_eq_getElem l 0 hj
        have h2 : listMax l ≤ v := by
          rw [← hgj]
          rw [h1] at hv
          exact hv
        exact le_trans h2 (le_listMax (mem_set_self hj v))
      · rw [← hgj]
        exact le_listMax (mem_set_of_ne hj hji v)
    · exact le_listMax (mem_set_self hi v)

theorem listMin_set {l : List Int} {i : Nat} (hi : i < l.length) (v : Int)
    (hv : v ≤ l.getD i 0) : listMin (l.set i v) = min (listMin l) v := by
  have hne : l ≠ [] := by
    intro h
    subst h
    simp at hi
  have hne' : l.set i v ≠ [] := by
    intro h
    have hlen0 : (l.set i v).length = 0 := by rw [h]; rfl
    rw [List.length_set] at hlen0
    omega
  apply le_antisymm
  · apply le_min
    · rcases List.mem_iff_getElem.mp (listMin_mem hne) with ⟨j, hj, hgj⟩
      by_cases hji : j = i
      · subst hji
        have h1 : l.getD j 0 = l[j] := List.getD_eq_getElem l 0 hj
        have h2 : v ≤ listMin l := by
          rw [← hgj]
          rw [h1] at hv
          exact hv
        exact le_trans (listMin_le (mem_set_self hj v)) h2
      · rw [← hgj]
        exact listMin_le (mem_set_of_ne hj hji v)
    · exact listMin_le (mem_set_self hi v)
  · rcases List.mem_or_eq_of_mem_set (listMin_mem hne') with hmem' | heq
    · exact le_trans (min_le_left _ _) (listMin_le hmem')
    · rw [heq]
      exact min_le_right _ _

theorem foldl_max_replicate (n : Nat) (a : Int) :
    (List.replicate n a).foldl max a = a := by
  induction n with
  | zero => rfl
  | succ k ih =>
    rw [List.replicate_succ, List.foldl_cons, max_self]
    exact ih

theorem foldl_min_replicate (n : Nat) (a : Int) :
    (List.replicate n a).foldl min a = a := by
  induction n with
  | zero => rfl
  | succ k ih =>
    rw [List.replicate_succ, List.foldl_cons, min_self]
    exact ih

theorem listMax_replicate (n : Nat) (a : Int) :
    listMax (List.replicate (n + 1) a) = a := by
  rw [List.replicate_succ]
  exact foldl_max_replicate n a

theorem listMin_replicate (n : Nat) (a : Int) :
    listMin (List.replicate (n + 1) a) = a := by
  rw [List.replicate_succ]
  exact foldl_min_replicate n a

theorem set_getD_self {l : List Int} {i : Nat} (hi : i < l.length) :
    l.set i (l.getD i 0) = l := by
  apply List.ext_getElem
  · simp
  · intro j hj hj'
    rw [List.getElem_set]
    by_cases hij : i = j
    · subst hij
      simp [List.getD, List.getElem?_eq_getElem hi]
    · simp [hij]

/-! ## Board (`board.py`, class `Board`)

Columns are indexed by `Nat` (Python also rejects negative indices, which
`Nat` makes unrepresentable).  Rows are `Int` because `_available_rows`
entries range over `[-1, height-1]`.  `config row col` is the cell
content, `' '` when empty; all writes performed by `add_token` /
`remove_token` stay inside the rectangle `[0,height) × [0,width)`. -/

structure Board where
  width : Nat
  height : Nat
  config : Int → Int → Char
  available_rows : List Int
  available_min : Int
  filled_max : Int

/-- `validate_token`: the token must be `'O'` or `'X'`. -/
def validToken (token : Char) : Prop := token = 'O' ∨ token = 'X'

instance (token : Char) : Decidable (validToken token) := by
  unfold validToken
  infer_instance

/-- `Board.__init__` + `Board._reset_private_attr`: `validate_dimension`
requires both dimensions to be at least 4; the fresh board is blank, every
column's available row is `height - 1`, `_available_min` is `height - 1`
and `_filled_max` is `height`. -/
def Board.make (width height : Nat) : Except String Board :=
  if width < 4 ∨ height < 4 then
    Except.error "Expected dimension to be at least 4"
  else
    Except.ok
      { width := width
        height := height
        config := fun _ _ => ' '
        available_rows := List.replicate width ((height : Int) - 1)
        available_min := (height : Int) - 1
        filled_max := (height : Int) }

/-- `Board.can_add_to`: `0 <= col < width and _available_rows[col] >= 0`. -/
def Board.can_add_to (b : Board) (col : Nat) : Bool :=
  decide (col < b.width) && decide (0 ≤ b.available_rows.getD col (-1))

/-- Point update of the configuration function (a single Python list
assignment `_config[row][col] = ch`). -/
def updateC (f : Int → Int → Char) (row col : Int) (ch : Char) :
    Int → Int → Char :=
  fun r c => if r = row ∧ c = col then ch else f r c

/-- The successful branch of `Board.add_token`: write the token at the
column's available row, decrement that row, lower `_available_min` if the
new row is smaller, and recompute `_filled_max = max(_available_rows)+1`. -/
def Board.added (b : Board) (token : Char) (col : Nat) : Board :=
  let row : Int := b.available_rows.getD col (-1)
  let new_rows := b.available_rows.set col (row - 1)
  { b with
    config := updateC b.config row (col : Int) token
    available_rows := new_rows
    available_min :=
      if row - 1 < b.available_min then row - 1 else b.available_min
    filled_max := listMax new_rows + 1 }

/-- `Board.add_token`: `validate_token`, then the `can_add_to` check, then
the mutation. -/
def Board.add_token (b : Board) (token : Char) (col : Nat) :
    Except String Board :=
  if ¬ validToken token then
    Except.error "Expected token to be either O or X"
  else if ¬ b.can_add_to col then
    Except.error "Cannot add token to the specified col."
  else
    Except.ok (b.added token col)

/-- `Board.is_full`: `all(row == -1 for row in self._available_rows)`. -/
def Board.is_full (b : Board) : Bool :=
  b.available_rows.all fun row => row == -1

/-- The successful branch of `Board.remove_token`: blank the top token of
the column, increment that column's available row, recompute
`_available_min = min(_available_rows)`, and raise `_filled_max` when the
restored row exceeds it. -/
def Board.removed (b : Board) (col : Nat) : Board :=
  let row : Int := b.available_rows.getD col (-1)
  let new_rows := b.available_rows.set col (row + 1)
  { b with
    config := updateC b.config (row + 1) (col : Int) ' '
    available_rows := new_rows
    available_min := listMin new_rows
    filled_max :=
      if row + 1 + 1 > b.filled_max then row + 1 + 1 else b.filled_max }

/-- `Board.remove_token`: the index check, the empty-column check, then
the mutation. -/
def Board.remove_token (b : Board) (col : Nat) : Except String Board :=
  if b.width ≤ col then
    Except.error "The specified col is not a valid index."
  else if b.available_rows.getD col (-1) = (b.height : Int) - 1 then
    Except.error "The specified col is empty."
  else
    Except.ok (b.removed col)

/-- Python `range(start, stop)` over `Int`. -/
def intRange (start stop : Int) : List Int :=
  (List.range (stop - start).toNat).map fun (i : Nat) => start + (i : Int)

/-- Four cells starting at `(row, col)` advancing by `(dr, dc)` all hold
`token` (the chained `token == _config[..][..] == ...` comparison). -/
def winAt (f : Int → Int → Char) (token : Char) (dr dc row col : Int) :
    Bool :=
  (token == f row col)
  && (token == f (row + dr) (col + dc))
  && (token == f (row + 2 * dr) (col + 2 * dc))
  && (token == f (row + 3 * dr) (col + 3 * dc))

/-- The common row/column scan of the four `_connects_*` helpers: rows run
over `range(start, stop)` with `start = _available_min + 1` and
`stop = min(_filled_max + 1, hcap)` in lazy mode and `[0, hcap)`
otherwise; columns run over `range(0, cstop)`; the window anchor is
`(row, col + cbase)`. -/
def Board.scanD (b : Board) (token : Char) (lazy : Bool)
    (dr dc cbase hcap cstop : Int) : Bool :=
  let start := if lazy then b.available_min + 1 else 0
  let stop := if lazy then min (b.filled_max + 1) hcap else hcap
  (intRange start stop).any fun row =>
    (intRange 0 cstop).any fun col =>
      winAt b.config token dr dc row (col + cbase)

/-- `Board._connects_horiz`: rows capped at `height`, columns in
`range(width - 3)`, direction `(0, 1)`. -/
def Board.connects_horiz (b : Board) (token : Char) (lazy : Bool) : Bool :=
  b.scanD token lazy 0 1 0 (b.height : Int) ((b.width : Int) - 3)

/-- `Board._connects_vert`: rows capped at `height - 3`, columns in
`range(width)`, direction `(1, 0)`. -/
def Board.connects_vert (b : Board) (token : Char) (lazy : Bool) : Bool :=
  b.scanD token lazy 1 0 0 ((b.height : Int) - 3) (b.width : Int)

/-- `Board._connects_topleft`: rows capped at `height - 3`, columns in
`range(width - 3)`, direction `(1, 1)`. -/
def Board.connects_topleft (b : Board) (token : Char) (lazy : Bool) : Bool :=
  b.scanD token lazy 1 1 0 ((b.height : Int) - 3) ((b.width : Int) - 3)

/-- `Board._connects_bottomleft`: rows capped at `height - 3`, columns in
`range(width - 3)`, anchor `(row, col + 3)`, direction `(1, -1)`. -/
def Board.connects_bottomleft (b : Board) (token : Char) (lazy : Bool) :
    Bool :=
  b.scanD token lazy 1 (-1) 3 ((b.height : Int) - 3) ((b.width : Int) - 3)

/-- `Board.connects` (after `validate_token`, which the claims' token
hypotheses discharge): the disjunction of the four direction scans. -/
def Board.connects (b : Board) (token : Char) (lazy : Bool) : Bool :=
  b.connects_horiz token lazy
  || b.connects_vert token lazy
  || b.connects_topleft token lazy
  || b.connects_bottomleft token lazy

/-- Boards reachable from a (validated) construction by successful
`add_token` / `remove_token` calls. -/
inductive Reachable : Board → Prop
  | make (w h : Nat) (b : Board) : Board.make w h = Except.ok b → Reachable b
  | add (b b' : Board) (t : Char) (c : Nat) : Reachable b →
      b.add_token t c = Except.ok b' → Reachable b'
  | rem (b b' : Board) (c : Nat) : Reachable b →
      b.remove_token c = Except.ok b' → Reachable b'

/-- The bookkeeping invariant of reachable boards: dimensions at least 4,
`_available_rows` has one entry per column, each entry lies in
`[-1, height-1]`, column `c` is filled exactly in rows
`_available_rows[c]+1 .. height-1`, the configuration is blank outside
the rectangle, `_available_min = min(_available_rows)` and
`_filled_max = max(_available_rows) + 1`. -/
structure BoardInv (b : Board) : Prop where
  wle : 4 ≤ b.width
  hle : 4 ≤ b.height
  len : b.available_rows.length = b.width
  rows_lb : ∀ c : Nat, c < b.width → -1 ≤ b.available_rows.getD c (-1)
  rows_ub : ∀ c : Nat, c < b.width →
    b.available_rows.getD c (-1) ≤ (b.height : Int) - 1
  col_filled : ∀ c : Nat, c < b.width → ∀ r : Int, 0 ≤ r →
    r < (b.height : Int) →
    (b.config r (c : Int) ≠ ' ' ↔ b.available_rows.getD c (-1) < r)
  out_blank : ∀ r c : Int,
    (r < 0 ∨ (b.height : Int) ≤ r ∨ c < 0 ∨ (b.width : Int) ≤ c) →
    b.config r c = ' '
  min_eq : b.available_min = listMin b.available_rows
  max_eq : b.filled_max = listMax b.available_rows + 1

/-! ### Inversion of the fallible operations and `getD` helpers -/

theorem Board.add_token_ok_iff {b b' : Board} {t : Char} {col : Nat} :
    b.add_token t col = Except.ok b' ↔
      validToken t ∧ b.can_add_to col = true ∧ b' = b.added t col := by
  unfold Board.add_token
  by_cases h1 : validToken t
  · by_cases h2 : b.can_add_to col = true
    · simp [h1, h2, eq_comm]
    · simp [h1, h2]
  · simp [h1]


theorem Board.remove_token_ok_iff {b b' : Board} {col : Nat} :
    b.remove_token col = Except.ok b' ↔
      col < b.width ∧
        b.available_rows.getD col (-1) ≠ (b.height : Int) - 1 ∧
        b' = b.removed col := by
  unfold Board.remove_token
  by_cases h1 : b.width ≤ col
  · rw [if_pos h1]
    simp [Nat.not_lt.mpr h1]
  · rw [if_neg h1]
    have h1' : col < b.width := Nat.not_le.mp h1
    by_cases h2 : b.available_rows.getD col (-1) = (b.height : Int) - 1
    · rw [if_pos h2]
      constructor
      · intro h
        exact absurd h (by simp)
      · rintro ⟨-, hne2, -⟩
        exact absurd h2 hne2
    · rw [if_neg h2]
      constructor
      · intro h
        refine ⟨h1', h2, ?_⟩
        injection h with h
        exact h.symm
      · rintro ⟨-, -, rfl⟩
        rfl

theorem getD_set_self {l : List Int} {i : Nat} (hi : i < l.length)
    (v d : Int) : (l.set i v).getD i d = v := by
  have hi' : i < (l.set i v).length := by simpa using hi
  rw [List.getD_eq_getElem _ _ hi']
  simp [List.getElem_set]

theorem getD_set_ne {l : List Int} {i j : Nat} (hne : j ≠ i) (v d : Int) :
    (l.set i v).getD j d = l.getD j d := by
  have hij : ¬ i = j := fun h => hne h.symm
  by_cases hj : j < l.length
  · have hj' : j < (l.set i v).length := by simpa using hj
    rw [List.getD_eq_getElem _ _ hj', List.getD_eq_getElem _ _ hj]
    simp [List.getElem_set, hij]
  · have hd1 : l.length ≤ j := Nat.not_lt.mp hj
    have hd2 : (l.set i v).length ≤ j := by simpa using hd1
    rw [List.getD_eq_default _ _ hd1, List.getD_eq_default _ _ hd2]

theorem getD_default_irrel {l : List Int} {i : Nat} (hi : i < l.length)
    (d1 d2 : Int) : l.getD i d1 = l.getD i d2 := by
  rw [List.getD_eq_getElem _ _ hi, List.getD_eq_getElem _ _ hi]

theorem getD_replicate {n i : Nat} (hi : i < n) (a d : Int) :
    (List.replicate n a).getD i d = a := by
  have hi' : i < (List.replicate n a).length := by simpa using hi
  rw [List.getD_eq_getElem _ _ hi']
  simp

/-! ### The invariant holds on construction and is preserved by the two
mutations -/

theorem inv_make {w ht : Nat} {b : Board}
    (hmk : Board.make w ht = Except.ok b) : BoardInv b := by
  unfold Board.make at hmk
  by_cases hdim : w < 4 ∨ ht < 4
  · simp [hdim] at hmk
  · simp only [hdim, if_false, Except.ok.injEq] at hmk
    push_neg at hdim
    obtain ⟨hw4, hh4⟩ := hdim
    obtain ⟨w', rfl⟩ : ∃ w', w = w' + 1 := ⟨w - 1, by omega⟩
    subst hmk
    constructor
    · exact hw4
    · exact hh4
    · simp
    · intro c hc
      have hc' : c < w' + 1 := hc
      rw [show (List.replicate (w' + 1) ((ht : Int) - 1)).getD c (-1) =
        (ht : Int) - 1 from getD_replicate hc' _ _]
      omega
    · intro c hc
      have hc' : c < w' + 1 := hc
      rw [show (List.replicate (w' + 1) ((ht : Int) - 1)).getD c (-1) =
        (ht : Int) - 1 from getD_replicate hc' _ _]
    · intro c hc r hr0 hrh
      have hc' : c < w' + 1 := hc
      have hrh' : r < (ht : Int) := hrh
      rw [show (List.replicate (w' + 1) ((ht : Int) - 1)).getD c (-1) =
        (ht : Int) - 1 from getD_replicate hc' _ _]
      constructor
      · intro hcontra
        exact absurd rfl hcontra
      · intro hlt
        exfalso
        omega
    · intro r c _
      rfl
    · exact (listMin_replicate w' _).symm
    · rw [show listMax (List.replicate (w' + 1) ((ht : Int) - 1)) =
        (ht : Int) - 1 from listMax_replicate w' _]
      show (ht : Int) = (ht : Int) - 1 + 1
      omega

theorem can_add_to_iff {b : Board} {col : Nat} :
    b.can_add_to col = true ↔
      col < b.width ∧ 0 ≤ b.available_rows.getD col (-1) := by
  simp [Board.can_add_to]

theorem cast_col_nonneg (col : Nat) : (0 : Int) ≤ (col : Int) :=
  Int.natCast_nonneg col

theorem cast_col_lt {col w : Nat} (h : col < w) : (col : Int) < (w : Int) := by
  exact_mod_cast h

theorem inv_add {b : Board} (inv : BoardInv b) {t : Char} {col : Nat}
    (ht : validToken t) (hcan : b.can_add_to col = true) :
    BoardInv (b.added t col) := by
  obtain ⟨hcw, hrow0⟩ := can_add_to_iff.mp hcan
  have hcl : col < b.available_rows.length := by
    rw [inv.len]
    exact hcw
  have hrub := inv.rows_ub col hcw
  have htne : t ≠ ' ' := by
    rcases ht with rfl | rfl <;> decide
  have hrows : (b.added t col).available_rows =
      b.available_rows.set col (b.available_rows.getD col (-1) - 1) := rfl
  have hconf : (b.added t col).config =
      updateC b.config (b.available_rows.getD col (-1)) (col : Int) t := rfl
  refine ⟨inv.wle, inv.hle, ?_, ?_, ?_, ?_, ?_, ?_, rfl⟩
  · rw [hrows]
    rw [List.length_set]
    exact inv.len
  · intro c hc
    have hc' : c < b.width := hc
    rw [hrows]
    by_cases hcc : c = col
    · subst hcc
      rw [getD_set_self hcl]
      omega
    · rw [getD_set_ne hcc]
      exact inv.rows_lb c hc'
  · intro c hc
    have hc' : c < b.width := hc
    rw [hrows]
    by_cases hcc : c = col
    · subst hcc
      rw [getD_set_self hcl]
      show b.available_rows.getD c (-1) - 1 ≤ (b.height : Int) - 1
      omega
    · rw [getD_set_ne hcc]
      exact inv.rows_ub c hc'
  · intro c hc r hr0 hrh
    have hc' : c < b.width := hc
    have hrh' : r < (b.height : Int) := hrh
    rw [hconf, hrows]
    by_cases hcc : c = col
    · subst hcc
      rw [getD_set_self hcl]
      by_cases hrr : r = b.available_rows.getD c (-1)
      · rw [updateC, if_pos ⟨hrr, rfl⟩]
        constructor
        · intro _
          omega
        · intro _
          exact htne
      · rw [updateC, if_neg (fun hand => hrr hand.1)]
        rw [inv.col_filled c hc' r hr0 hrh']
        omega
    · have hccast : ¬ ((c : Int) = (col : Int)) := by
        intro hcast
        exact hcc (Nat.cast_injective hcast)
      rw [getD_set_ne hcc]
      rw [updateC, if_neg (fun hand => hccast hand.2)]
      exact inv.col_filled c hc' r hr0 hrh'
  · intro r c hout
    have hout' : r < 0 ∨ (b.height : Int) ≤ r ∨ c < 0 ∨ (b.width : Int) ≤ c :=
      hout
    rw [hconf]
    by_cases hcond : r = b.available_rows.getD col (-1) ∧ c = (col : Int)
    · exfalso
      obtain ⟨rfl, rfl⟩ := hcond
      have h1 := cast_col_nonneg col
      have h2 := cast_col_lt hcw
      omega
    · rw [updateC, if_neg hcond]
      exact inv.out_blank r c hout'
  · have hamin : (b.added t col).available_min =
        if b.available_rows.getD col (-1) - 1 < b.available_min then
          b.available_rows.getD col (-1) - 1
        else b.available_min := rfl
    have hg0 : b.available_rows.getD col 0 = b.available_rows.getD col (-1) :=
      getD_default_irrel hcl 0 (-1)
    rw [hamin, hrows, listMin_set hcl _ (by omega), ← inv.min_eq]
    by_cases hlt : b.available_rows.getD col (-1) - 1 < b.available_min
    · rw [if_pos hlt]
      exact (min_eq_right (le_of_lt hlt)).symm
    · rw [if_neg hlt]
      exact (min_eq_left (by omega)).symm

theorem inv_rem {b : Board} (inv : BoardInv b) {col : Nat}
    (hcw : col < b.width)
    (hnf : b.available_rows.getD col (-1) ≠ (b.height : Int) - 1) :
    BoardInv (b.removed col) := by
  have hcl : col < b.available_rows.length := by
    rw [inv.len]
    exact hcw
  have hrlb := inv.rows_lb col hcw
  have hrub := inv.rows_ub col hcw
  have hrows : (b.removed col).available_rows =
      b.available_rows.set col (b.available_rows.getD col (-1) + 1) := rfl
  have hconf : (b.removed col).config =
      updateC b.config (b.available_rows.getD col (-1) + 1) (col : Int) ' ' :=
    rfl
  refine ⟨inv.wle, inv.hle, ?_, ?_, ?_, ?_, ?_, rfl, ?_⟩
  · rw [hrows]
    rw [List.length_set]
    exact inv.len
  · intro c hc
    have hc' : c < b.width := hc
    rw [hrows]
    by_cases hcc : c = col
    · subst hcc
      rw [getD_set_self hcl]
      omega
    · rw [getD_set_ne hcc]
      exact inv.rows_lb c hc'
  · intro c hc
    have hc' : c < b.width := hc
    rw [hrows]
    by_cases hcc : c = col
    · subst hcc
      rw [getD_set_self hcl]
      show b.available_rows.getD c (-1) + 1 ≤ (b.height : Int) - 1
      omega
    · rw [getD_set_ne hcc]
      exact inv.rows_ub c hc'
  · intro c hc r hr0 hrh
    have hc' : c < b.width := hc
    have hrh' : r < (b.height : Int) := hrh
    rw [hconf, hrows]
    by_cases hcc : c = col
    · subst hcc
      rw [getD_set_self hcl]
      by_cases hrr : r = b.available_rows.getD c (-1) + 1
      · rw [updateC, if_pos ⟨hrr, rfl⟩]
        constructor
        · intro hcontra
          exact absurd rfl hcontra
        · intro hlt
          exfalso
          omega
      · rw [updateC, if_neg (fun hand => hrr hand.1)]
        rw [inv.col_filled c hc' r hr0 hrh']
        omega
    · have hccast : ¬ ((c : Int) = (col : Int)) := by
        intro hcast
        exact hcc (Nat.cast_injective hcast)
      rw [getD_set_ne hcc]
      rw [updateC, if_neg (fun hand => hccast hand.2)]
      exact inv.col_filled c hc' r hr0 hrh'
  · intro r c hout
    have hout' : r < 0 ∨ (b.height : Int) ≤ r ∨ c < 0 ∨ (b.width : Int) ≤ c :=
      hout
    rw [hconf]
    by_cases hcond :
        r = b.available_rows.getD col (-1) + 1 ∧ c = (col : Int)
    · rw [updateC, if_pos hcond]
    · rw [updateC, if_neg hcond]
      exact inv.out_blank r c hout'
  · have hfm : (b.removed col).filled_max =
        if b.available_rows.getD col (-1) + 1 + 1 > b.filled_max then
          b.available_rows.getD col (-1) + 1 + 1
        else b.filled_max := rfl
    have hg0 : b.available_rows.getD col 0 = b.available_rows.getD col (-1) :=
      getD_default_irrel hcl 0 (-1)
    rw [hfm, hrows, listMax_set hcl _ (by omega), inv.max_eq]
    by_cases hgt :
        b.available_rows.getD col (-1) + 1 + 1 > listMax b.available_rows + 1
    · rw [if_pos hgt]
      rw [max_eq_right (by omega : listMax b.available_rows ≤
        b.available_rows.getD col (-1) + 1)]
    · rw [if_neg hgt]
      rw [max_eq_left (by omega : b.available_rows.getD col (-1) + 1 ≤
        listMax b.available_rows)]

/-- Every reachable board satisfies the bookkeeping invariant. -/
theorem reachable_inv {b : Board} (h : Reachable b) : BoardInv b := by
  induction h with
  | make w ht b hmk => exact inv_make hmk
  | add b b' t c _ hstep ih =>
    rw [Board.add_token_ok_iff] at hstep
    obtain ⟨ht, hcan, rfl⟩ := hstep
    exact inv_add ih ht hcan
  | rem b b' c _ hstep ih =>
    rw [Board.remove_token_ok_iff] at hstep
    obtain ⟨hcw, hne, rfl⟩ := hstep
    exact inv_rem ih hcw hne

/-- The three bookkeeping conditions named by claim C10. -/
def BookkeepingOK (b : Board) : Prop :=
  (∀ c : Nat, c < b.width →
    -1 ≤ b.available_rows.getD c (-1) ∧
    b.available_rows.getD c (-1) ≤ (b.height : Int) - 1 ∧
    (∀ r : Int, 0 ≤ r → r < (b.height : Int) →
      (b.config r (c : Int) ≠ ' ' ↔ b.available_rows.getD c (-1) < r))) ∧
  b.available_min = listMin b.available_rows ∧
  b.filled_max = listMax b.available_rows + 1

theorem boardInv_bookkeeping {b : Board} (inv : BoardInv b) :
    BookkeepingOK b :=
  ⟨fun c hc => ⟨inv.rows_lb c hc, inv.rows_ub c hc, inv.col_filled c hc⟩,
    inv.min_eq, inv.max_eq⟩

/-- C10: every board reachable from construction through `add_token` and
`remove_token` maintains the aggregate bookkeeping invariant: each
`_available_rows[c]` lies in `[-1, height-1]`, column `c` is filled
exactly in rows `_available_rows[c]+1 .. height-1`, `_available_min`
equals `min(_available_rows)` and `_filled_max` equals
`max(_available_rows) + 1`; and each of `add_token` / `remove_token`
(when it does not raise) preserves all three conditions. -/
theorem C10_bookkeeping_invariant :
    (∀ b : Board, Reachable b → BookkeepingOK b) ∧
    (∀ (b : Board) (t : Char) (c : Nat) (b' : Board), Reachable b →
      b.add_token t c = Except.ok b' → BookkeepingOK b') ∧
    (∀ (b : Board) (c : Nat) (b' : Board), Reachable b →
      b.remove_token c = Except.ok b' → BookkeepingOK b') := by
  refine ⟨fun b hb => boardInv_bookkeeping (reachable_inv hb), ?_, ?_⟩
  · intro b t c b' hb hstep
    exact boardInv_bookkeeping (reachable_inv (Reachable.add b b' t c hb hstep))
  · intro b c b' hb hstep
    exact boardInv_bookkeeping (reachable_inv (Reachable.rem b b' c hb hstep))

/-- The freshly constructed 4×4 board (`Board.make 4 4` succeeds with
exactly this record). -/
def b44 : Board :=
  { width := 4
    height := 4
    config := fun _ _ => ' '
    available_rows := List.replicate 4 ((4 : Int) - 1)
    available_min := (4 : Int) - 1
    filled_max := (4 : Int) }

theorem b44_reachable : Reachable b44 := Reachable.make 4 4 b44 rfl

/-- Witness for C10 at the concrete reachable board `b44`. -/
theorem C10_witness : BookkeepingOK b44 :=
  C10_bookkeeping_invariant.1 b44 b44_reachable

/-- C2: on any reachable board, for a valid token and a playable column,
`add_token` followed by `remove_token` restores the board exactly: every
cell of `_config` and the three bookkeeping fields return to their prior
values. -/
theorem C2_add_remove_restores :
    ∀ b : Board, Reachable b → ∀ (t : Char) (col : Nat), validToken t →
      b.can_add_to col = true →
      ∃ b1 b2 : Board,
        b.add_token t col = Except.ok b1 ∧
        b1.remove_token col = Except.ok b2 ∧
        (∀ r c : Int, b2.config r c = b.config r c) ∧
        b2.available_rows = b.available_rows ∧
        b2.available_min = b.available_min ∧
        b2.filled_max = b.filled_max := by
  intro b hreach t col ht hcan
  have inv := reachable_inv hreach
  obtain ⟨hcw, hrow0⟩ := can_add_to_iff.mp hcan
  have hcl : col < b.available_rows.length := by
    rw [inv.len]
    exact hcw
  have hrub := inv.rows_ub col hcw
  have hrows1 : (b.added t col).available_rows =
      b.available_rows.set col (b.available_rows.getD col (-1) - 1) := rfl
  have hconf1 : (b.added t col).config =
      updateC b.config (b.available_rows.getD col (-1)) (col : Int) t := rfl
  have hgadd : (b.added t col).available_rows.getD col (-1) =
      b.available_rows.getD col (-1) - 1 := by
    rw [hrows1]
    exact getD_set_self hcl _ _
  have hrows2 : ((b.added t col).removed col).available_rows =
      (b.added t col).available_rows.set col
        ((b.added t col).available_rows.getD col (-1) + 1) := rfl
  have hconf2 : ((b.added t col).removed col).config =
      updateC (b.added t col).config
        ((b.added t col).available_rows.getD col (-1) + 1) (col : Int) ' ' :=
    rfl
  have hid : b.available_rows.getD col (-1) = b.available_rows.getD col 0 :=
    getD_default_irrel hcl (-1) 0
  have havail : ((b.added t col).removed col).available_rows =
      b.available_rows := by
    rw [hrows2, hgadd, hrows1, List.set_set]
    rw [show b.available_rows.getD col (-1) - 1 + 1 =
      b.available_rows.getD col 0 from by omega]
    exact set_getD_self hcl
  refine ⟨b.added t col, (b.added t col).removed col, ?_, ?_, ?_, havail, ?_, ?_⟩
  · exact Board.add_token_ok_iff.mpr ⟨ht, hcan, rfl⟩
  · apply Board.remove_token_ok_iff.mpr
    refine ⟨hcw, ?_, rfl⟩
    rw [hgadd]
    show b.available_rows.getD col (-1) - 1 ≠ (b.height : Int) - 1
    omega
  · intro r c
    rw [hconf2, hconf1, hgadd]
    by_cases hcond : r = b.available_rows.getD col (-1) - 1 + 1 ∧
        c = (col : Int)
    · simp only [updateC]
      rw [if_pos hcond]
      obtain ⟨hr, hc⟩ := hcond
      have hr' : r = b.available_rows.getD col (-1) := by omega
      subst hc
      rw [hr']
      have hblank : b.config (b.available_rows.getD col (-1)) (col : Int) =
          ' ' := by
        by_contra hne
        have := (inv.col_filled col hcw _ hrow0 (by omega)).mp hne
        omega
      exact hblank.symm
    · have hcond2 : ¬(r = b.available_rows.getD col (-1) ∧
          c = (col : Int)) := by
        intro hand
        exact hcond ⟨by omega, hand.2⟩
      simp only [updateC]
      rw [if_neg hcond, if_neg hcond2]
  · have hmin2 : ((b.added t col).removed col).available_min =
        listMin ((b.added t col).removed col).available_rows := rfl
    rw [hmin2, havail]
    exact inv.min_eq.symm
  · have hfm2 : ((b.added t col).removed col).filled_max =
        if (b.added t col).available_rows.getD col (-1) + 1 + 1 >
            (b.added t col).filled_max then
          (b.added t col).available_rows.getD col (-1) + 1 + 1
        else (b.added t col).filled_max := rfl
    have hfm1 : (b.added t col).filled_max =
        listMax (b.available_rows.set col
          (b.available_rows.getD col (-1) - 1)) + 1 := rfl
    have hback : (b.available_rows.set col
        (b.available_rows.getD col (-1) - 1)).set col
          (b.available_rows.getD col (-1)) = b.available_rows := by
      rw [List.set_set, hid]
      exact set_getD_self hcl
    have hM : listMax b.available_rows =
        max (listMax (b.available_rows.set col
          (b.available_rows.getD col (-1) - 1)))
          (b.available_rows.getD col (-1)) := by
      have hcl' : col < (b.available_rows.set col
          (b.available_rows.getD col (-1) - 1)).length := by
        simpa using hcl
      have hgset0 : (b.available_rows.set col
          (b.available_rows.getD col (-1) - 1)).getD col 0 =
          b.available_rows.getD col (-1) - 1 := getD_set_self hcl _ _
      have h2 := listMax_set hcl' (b.available_rows.getD col (-1))
        (by rw [hgset0]; omega)
      rw [hback] at h2
      exact h2
    rw [hfm2, hgadd, hfm1, inv.max_eq, hM]
    by_cases hgt : b.available_rows.getD col (-1) - 1 + 1 + 1 >
        listMax (b.available_rows.set col
          (b.available_rows.getD col (-1) - 1)) + 1
    · rw [if_pos hgt, max_eq_right (by omega : listMax (b.available_rows.set
        col (b.available_rows.getD col (-1) - 1)) ≤
        b.available_rows.getD col (-1))]
      omega
    · rw [if_neg hgt, max_eq_left (by omega : b.available_rows.getD col (-1) ≤
        listMax (b.available_rows.set col
          (b.available_rows.getD col (-1) - 1)))]

/-- Witness for C2 at the empty 4×4 board, token `'O'`, column 0. -/
theorem C2_witness :
    ∃ b1 b2 : Board,
      b44.add_token 'O' 0 = Except.ok b1 ∧
      b1.remove_token 0 = Except.ok b2 ∧
      (∀ r c : Int, b2.config r c = b44.config r c) ∧
      b2.available_rows = b44.available_rows ∧
      b2.available_min = b44.available_min ∧
      b2.filled_max = b44.filled_max :=
  C2_add_remove_restores b44 b44_reachable 'O' 0 (Or.inl rfl) (by rfl)

/-! ### Windowed/full win-check machinery (C1) -/

theorem mem_intRange {x start stop : Int} :
    x ∈ intRange start stop ↔ start ≤ x ∧ x < stop := by
  unfold intRange
  constructor
  · intro hx
    obtain ⟨i, hi, rfl⟩ := List.mem_map.mp hx
    rw [List.mem_range] at hi
    omega
  · intro ⟨h1, h2⟩
    apply List.mem_map.mpr
    refine ⟨(x - start).toNat, ?_, ?_⟩
    · rw [List.mem_range]
      omega
    · omega

theorem scanD_false_iff (b : Board) (t : Char) (dr dc cbase hcap cstop : Int) :
    b.scanD t false dr dc cbase hcap cstop = true ↔
      ∃ r c : Int, 0 ≤ r ∧ r < hcap ∧ 0 ≤ c ∧ c < cstop ∧
        winAt b.config t dr dc r (c + cbase) = true := by
  unfold Board.scanD
  simp only [if_neg (by simp : ¬ (false = true)), List.any_eq_true,
    mem_intRange]
  constructor
  · rintro ⟨r, ⟨hr1, hr2⟩, c, ⟨hc1, hc2⟩, hw⟩
    exact ⟨r, c, hr1, hr2, hc1, hc2, hw⟩
  · rintro ⟨r, c, hr1, hr2, hc1, hc2, hw⟩
    exact ⟨r, ⟨hr1, hr2⟩, c, ⟨hc1, hc2⟩, hw⟩

theorem scanD_true_iff (b : Board) (t : Char) (dr dc cbase hcap cstop : Int) :
    b.scanD t true dr dc cbase hcap cstop = true ↔
      ∃ r c : Int, b.available_min + 1 ≤ r ∧
        r < min (b.filled_max + 1) hcap ∧ 0 ≤ c ∧ c < cstop ∧
        winAt b.config t dr dc r (c + cbase) = true := by
  unfold Board.scanD
  simp only [if_pos rfl, List.any_eq_true, mem_intRange]
  constructor
  · rintro ⟨r, ⟨hr1, hr2⟩, c, ⟨hc1, hc2⟩, hw⟩
    exact ⟨r, c, hr1, hr2, hc1, hc2, hw⟩
  · rintro ⟨r, c, hr1, hr2, hc1, hc2, hw⟩
    exact ⟨r, ⟨hr1, hr2⟩, c, ⟨hc1, hc2⟩, hw⟩

/-- The window anchored at `(r, cb)` with direction `(dr, dc)` contains
the cell `(v, cI)`. -/
def hitsCell (dr dc r cb v cI : Int) : Prop :=
  (r = v ∧ cb = cI) ∨ (r + dr = v ∧ cb + dc = cI) ∨
    (r + 2 * dr = v ∧ cb + 2 * dc = cI) ∨
    (r + 3 * dr = v ∧ cb + 3 * dc = cI)

theorem winAt_update_cases {f : Int → Int → Char} {v cI : Int} {tok t : Char}
    {dr dc r cb : Int}
    (h : winAt (updateC f v cI tok) t dr dc r cb = true) :
    winAt f t dr dc r cb = true ∨ (t = tok ∧ hitsCell dr dc r cb v cI) := by
  simp only [winAt, Bool.and_eq_true, beq_iff_eq] at h
  obtain ⟨⟨⟨h0, h1⟩, h2⟩, h3⟩ := h
  by_cases hhit : hitsCell dr dc r cb v cI
  · right
    refine ⟨?_, hhit⟩
    rcases hhit with ⟨ha, hb⟩ | ⟨ha, hb⟩ | ⟨ha, hb⟩ | ⟨ha, hb⟩
    · rw [h0]
      simp only [updateC]
      rw [if_pos ⟨ha, hb⟩]
    · rw [h1]
      simp only [updateC]
      rw [if_pos ⟨ha, hb⟩]
    · rw [h2]
      simp only [updateC]
      rw [if_pos ⟨ha, hb⟩]
    · rw [h3]
      simp only [updateC]
      rw [if_pos ⟨ha, hb⟩]
  · left
    simp only [hitsCell, not_or] at hhit
    obtain ⟨n0, n1, n2, n3⟩ := hhit
    simp only [updateC] at h0 h1 h2 h3
    rw [if_neg n0] at h0
    rw [if_neg n1] at h1
    rw [if_neg n2] at h2
    rw [if_neg n3] at h3
    simp only [winAt, Bool.and_eq_true, beq_iff_eq]
    exact ⟨⟨⟨h0, h1⟩, h2⟩, h3⟩

theorem hitsCell_row_le {dr dc r cb v cI : Int} (hdr : 0 ≤ dr)
    (h : hitsCell dr dc r cb v cI) : r ≤ v := by
  rcases h with ⟨h, -⟩ | ⟨h, -⟩ | ⟨h, -⟩ | ⟨h, -⟩ <;> omega

theorem inv_amin_lb {b : Board} (inv : BoardInv b) : -1 ≤ b.available_min := by
  rw [inv.min_eq]
  have hne : b.available_rows ≠ [] := by
    intro h
    have hlen := inv.len
    rw [h] at hlen
    simp at hlen
    have := inv.wle
    omega
  rcases List.mem_iff_getElem.mp (listMin_mem hne) with ⟨j, hj, hgj⟩
  have hjw : j < b.width := by
    rw [← inv.len]
    exact hj
  have := inv.rows_lb j hjw
  rw [List.getD_eq_getElem _ _ hj] at this
  omega

theorem filled_facts {b : Board} (inv : BoardInv b) {r c : Int}
    (h : b.config r c ≠ ' ') :
    0 ≤ r ∧ r < (b.height : Int) ∧ 0 ≤ c ∧ c < (b.width : Int) ∧
      ∃ cn : Nat, (cn : Int) = c ∧ cn < b.width ∧
        b.available_rows.getD cn (-1) < r := by
  by_cases hin : r < 0 ∨ (b.height : Int) ≤ r ∨ c < 0 ∨ (b.width : Int) ≤ c
  · exact absurd (inv.out_blank r c hin) h
  · push_neg at hin
    obtain ⟨h1, h2, h3, h4⟩ := hin
    have hc : ((c.toNat : Nat) : Int) = c := Int.toNat_of_nonneg h3
    have hcn : c.toNat < b.width := by omega
    have hiff := inv.col_filled c.toNat hcn r h1 h2
    rw [hc] at hiff
    exact ⟨h1, h2, h3, h4, c.toNat, hc, hcn, hiff.mp h⟩

theorem amin_le_getD {b : Board} (inv : BoardInv b) {c : Nat}
    (hc : c < b.width) :
    b.available_min ≤ b.available_rows.getD c (-1) := by
  rw [inv.min_eq]
  have hcl : c < b.available_rows.length := by
    rw [inv.len]
    exact hc
  apply listMin_le
  rw [List.getD_eq_getElem _ _ hcl]
  exact List.getElem_mem _

theorem le_filled_max {b : Board} (inv : BoardInv b) {c : Nat}
    (hc : c < b.width) :
    b.available_rows.getD c (-1) + 1 ≤ b.filled_max := by
  rw [inv.max_eq]
  have hcl : c < b.available_rows.length := by
    rw [inv.len]
    exact hc
  have hmem : b.available_rows.getD c (-1) ∈ b.available_rows := by
    rw [List.getD_eq_getElem _ _ hcl]
    exact List.getElem_mem _
  have := le_listMax hmem
  omega

/-- A winning window that contains the top filled cell of some column sits
inside the lazy scan's row band. -/
theorem window_in_lazy_rows {b : Board} (inv : BoardInv b) {t : Char}
    (htne : t ≠ ' ') {dr dc r cb : Int} (hdr : 0 ≤ dr)
    {col : Nat} (hcol : col < b.width)
    (hw : winAt b.config t dr dc r cb = true)
    (hhit : hitsCell dr dc r cb
      (b.available_rows.getD col (-1) + 1) (col : Int)) :
    b.available_min + 1 ≤ r ∧ r ≤ b.filled_max := by
  constructor
  · have hcell0 : b.config r cb = t := by
      simp only [winAt, Bool.and_eq_true, beq_iff_eq] at hw
      exact hw.1.1.1.symm
    have hne : b.config r cb ≠ ' ' := by
      rw [hcell0]
      exact htne
    obtain ⟨-, -, -, -, cn, -, hcn, hlt⟩ := filled_facts inv hne
    have := amin_le_getD inv hcn
    omega
  · have hrv := hitsCell_row_le hdr hhit
    have := le_filled_max inv hcol
    omega

theorem scanD_lazy_imp_full {b : Board} (hmin : -1 ≤ b.available_min)
    {t : Char} {dr dc cbase hcap cstop : Int}
    (h : b.scanD t true dr dc cbase hcap cstop = true) :
    b.scanD t false dr dc cbase hcap cstop = true := by
  rw [scanD_true_iff] at h
  rw [scanD_false_iff]
  obtain ⟨r, c, hr1, hr2, hc1, hc2, hwin⟩ := h
  have hr2' := lt_min_iff.mp hr2
  exact ⟨r, c, by omega, hr2'.2, hc1, hc2, hwin⟩

theorem scanD_full_to_lazy_add {b : Board} {tok : Char} {col : Nat}
    (inv' : BoardInv (b.added tok col)) (hcol : col < b.width)
    {t : Char} (htne : t ≠ ' ')
    {dr dc cbase hcap cstop : Int} (hdr : 0 ≤ dr)
    (hfull_b : b.scanD t false dr dc cbase hcap cstop = false)
    (hfull : (b.added tok col).scanD t false dr dc cbase hcap cstop = true) :
    (b.added tok col).scanD t true dr dc cbase hcap cstop = true := by
  rw [scanD_false_iff] at hfull
  obtain ⟨r, c, hr0, hrcap, hc0, hccap, hwin⟩ := hfull
  have hconf : (b.added tok col).config =
      updateC b.config (b.available_rows.getD col (-1)) (col : Int) tok := rfl
  rw [hconf] at hwin
  rcases winAt_update_cases hwin with hwb | ⟨rfl, hhit⟩
  · exfalso
    have hne : ¬ (b.scanD t false dr dc cbase hcap cstop = true) := by
      rw [hfull_b]
      simp
    exact hne ((scanD_false_iff b t dr dc cbase hcap cstop).mpr
      ⟨r, c, hr0, hrcap, hc0, hccap, hwb⟩)
  · have hcl : col < b.available_rows.length := by
      have hlen := inv'.len
      rw [show (b.added t col).available_rows =
        b.available_rows.set col (b.available_rows.getD col (-1) - 1) from rfl,
        List.length_set] at hlen
      rw [hlen]
      exact hcol
    have hgadd : (b.added t col).available_rows.getD col (-1) =
        b.available_rows.getD col (-1) - 1 := by
      rw [show (b.added t col).available_rows =
        b.available_rows.set col (b.available_rows.getD col (-1) - 1) from rfl]
      exact getD_set_self hcl _ _
    have hhit' : hitsCell dr dc r (c + cbase)
        ((b.added t col).available_rows.getD col (-1) + 1) (col : Int) := by
      rw [hgadd]
      rw [show b.available_rows.getD col (-1) - 1 + 1 =
        b.available_rows.getD col (-1) from by omega]
      exact hhit
    rw [← hconf] at hwin
    have hcol' : col < (b.added t col).width := hcol
    obtain ⟨hlo, hhi⟩ := window_in_lazy_rows inv' htne hdr hcol' hwin hhit'
    rw [scanD_true_iff]
    exact ⟨r, c, hlo, lt_min_iff.mpr ⟨by omega, hrcap⟩, hc0, hccap, hwin⟩

theorem scanD_full_remove_false {b : Board} {col : Nat}
    {t : Char} (htne : t ≠ ' ')
    {dr dc cbase hcap cstop : Int}
    (hfull_b : b.scanD t false dr dc cbase hcap cstop = false) :
    (b.removed col).scanD t false dr dc cbase hcap cstop = false := by
  cases hs : (b.removed col).scanD t false dr dc cbase hcap cstop
  · rfl
  · exfalso
    rw [scanD_false_iff] at hs
    obtain ⟨r, c, hr0, hrcap, hc0, hccap, hwin⟩ := hs
    have hconf : (b.removed col).config =
        updateC b.config (b.available_rows.getD col (-1) + 1) (col : Int)
          ' ' := rfl
    rw [hconf] at hwin
    rcases winAt_update_cases hwin with hwb | ⟨rfl, -⟩
    · have hne : ¬ (b.scanD t false dr dc cbase hcap cstop = true) := by
        rw [hfull_b]
        simp
      exact hne ((scanD_false_iff b t dr dc cbase hcap cstop).mpr
        ⟨r, c, hr0, hrcap, hc0, hccap, hwb⟩)
    · exact htne rfl

theorem connects_lazy_imp_full {b : Board} (hmin : -1 ≤ b.available_min)
    {t : Char} (h : b.connects t true = true) : b.connects t false = true := by
  simp only [Board.connects, Board.connects_horiz, Board.connects_vert,
    Board.connects_topleft, Board.connects_bottomleft, Bool.or_eq_true] at h ⊢
  rcases h with ((h | h) | h) | h
  · exact Or.inl (Or.inl (Or.inl (scanD_lazy_imp_full hmin h)))
  · exact Or.inl (Or.inl (Or.inr (scanD_lazy_imp_full hmin h)))
  · exact Or.inl (Or.inr (scanD_lazy_imp_full hmin h))
  · exact Or.inr (scanD_lazy_imp_full hmin h)

theorem connects_false_parts {b : Board} {t : Char}
    (h : b.connects t false = false) :
    b.scanD t false 0 1 0 (b.height : Int) ((b.width : Int) - 3) = false ∧
    b.scanD t false 1 0 0 ((b.height : Int) - 3) (b.width : Int) = false ∧
    b.scanD t false 1 1 0 ((b.height : Int) - 3) ((b.width : Int) - 3) =
      false ∧
    b.scanD t false 1 (-1) 3 ((b.height : Int) - 3) ((b.width : Int) - 3) =
      false := by
  simp only [Board.connects, Board.connects_horiz, Board.connects_vert,
    Board.connects_topleft, Board.connects_bottomleft,
    Bool.or_eq_false_iff] at h
  exact ⟨h.1.1.1, h.1.1.2, h.1.2, h.2⟩

theorem connects_equiv_after_add {b : Board} (hreach : Reachable b)
    {t : Char} (ht : validToken t)
    (hfalse : b.connects t false = false)
    {tok : Char} {col : Nat} {b' : Board}
    (hstep : b.add_token tok col = Except.ok b') :
    b'.connects t true = b'.connects t false := by
  rw [Board.add_token_ok_iff] at hstep
  obtain ⟨htok, hcan, rfl⟩ := hstep
  have inv := reachable_inv hreach
  have inv' := inv_add inv htok hcan
  obtain ⟨hcw, -⟩ := can_add_to_iff.mp hcan
  have htne : t ≠ ' ' := by
    rcases ht with rfl | rfl <;> decide
  have hmin' : -1 ≤ (b.added tok col).available_min := inv_amin_lb inv'
  obtain ⟨f1, f2, f3, f4⟩ := connects_false_parts hfalse
  cases hfull : (b.added tok col).connects t false
  · cases hlazy : (b.added tok col).connects t true
    · rfl
    · exfalso
      have hf := connects_lazy_imp_full hmin' hlazy
      rw [hfull] at hf
      exact absurd hf (by simp)
  · have hlazy : (b.added tok col).connects t true = true := by
      have hfull' := hfull
      simp only [Board.connects, Board.connects_horiz, Board.connects_vert,
        Board.connects_topleft, Board.connects_bottomleft,
        Bool.or_eq_true] at hfull' ⊢
      rcases hfull' with ((h | h) | h) | h
      · exact Or.inl (Or.inl (Or.inl
          (scanD_full_to_lazy_add inv' hcw htne (by omega) f1 h)))
      · exact Or.inl (Or.inl (Or.inr
          (scanD_full_to_lazy_add inv' hcw htne (by omega) f2 h)))
      · exact Or.inl (Or.inr
          (scanD_full_to_lazy_add inv' hcw htne (by omega) f3 h))
      · exact Or.inr
          (scanD_full_to_lazy_add inv' hcw htne (by omega) f4 h)
    rw [hlazy]

theorem connects_equiv_after_remove {b : Board} (hreach : Reachable b)
    {t : Char} (ht : validToken t)
    (hfalse : b.connects t false = false)
    {col : Nat} {b' : Board}
    (hstep : b.remove_token col = Except.ok b') :
    b'.connects t true = b'.connects t false := by
  rw [Board.remove_token_ok_iff] at hstep
  obtain ⟨hcw, hne, rfl⟩ := hstep
  have inv := reachable_inv hreach
  have inv' := inv_rem inv hcw hne
  have htne : t ≠ ' ' := by
    rcases ht with rfl | rfl <;> decide
  have hmin' : -1 ≤ (b.removed col).available_min := inv_amin_lb inv'
  obtain ⟨f1, f2, f3, f4⟩ := connects_false_parts hfalse
  have hfull : (b.removed col).connects t false = false := by
    simp only [Board.connects, Board.connects_horiz, Board.connects_vert,
      Board.connects_topleft, Board.connects_bottomleft,
      Bool.or_eq_false_iff]
    exact ⟨⟨⟨scanD_full_remove_false htne f1, scanD_full_remove_false htne f2⟩,
      scanD_full_remove_false htne f3⟩, scanD_full_remove_false htne f4⟩
  rw [hfull]
  cases hlazy : (b.removed col).connects t true
  · rfl
  · exfalso
    have hf := connects_lazy_imp_full hmin' hlazy
    rw [hfull] at hf
    exact absurd hf (by simp)

/-- C1 (amended): on every reachable board on which the queried token has
no four-in-a-row under the full scan, the windowed win check
`connects(token, lazy=True)` agrees with the full scan
`connects(token, lazy=False)` immediately after any successful
`add_token` or `remove_token`.  The restriction to boards without a
pre-existing four-in-a-row is forced by the counterexample below. -/
theorem C1_windowed_equiv :
    ∀ b : Board, Reachable b → ∀ t : Char, validToken t →
      b.connects t false = false →
      (∀ (tok : Char) (col : Nat) (b' : Board),
        b.add_token tok col = Except.ok b' →
        b'.connects t true = b'.connects t false) ∧
      (∀ (col : Nat) (b' : Board),
        b.remove_token col = Except.ok b' →
        b'.connects t true = b'.connects t false) := by
  intro b hreach t ht hfalse
  exact ⟨fun tok col b' h => connects_equiv_after_add hreach ht hfalse h,
    fun col b' h => connects_equiv_after_remove hreach ht hfalse h⟩

/-- Run a list of `(token, column)` additions, stopping at the first
failure. -/
def playAdds (b : Board) (moves : List (Char × Nat)) : Except String Board :=
  match moves with
  | [] => Except.ok b
  | (t, c) :: rest =>
    match b.add_token t c with
    | Except.ok b' => playAdds b' rest
    | Except.error e => Except.error e

theorem reachable_playAdds :
    ∀ (moves : List (Char × Nat)) (b b' : Board), Reachable b →
      playAdds b moves = Except.ok b' → Reachable b' := by
  intro moves
  induction moves with
  | nil =>
    intro b b' hb h
    unfold playAdds at h
    injection h with h
    rw [← h]
    exact hb
  | cons m rest ih =>
    intro b b' hb h
    obtain ⟨t, c⟩ := m
    unfold playAdds at h
    cases hstep : b.add_token t c with
    | ok b1 =>
      rw [hstep] at h
      exact ih b1 b' (Reachable.add b b1 t c hb hstep) h
    | error e =>
      rw [hstep] at h
      exact absurd h (by simp)

/-- The eight additions `O@0 O@1 O@2 O@3 X@0 X@1 X@2 X@3` on a fresh 4×4
board: the bottom row is `OOOO` (a win for `O`), the row above is
`XXXX`, and every column holds two tokens. -/
def cexC1moves : List (Char × Nat) :=
  [('O', 0), ('O', 1), ('O', 2), ('O', 3),
   ('X', 0), ('X', 1), ('X', 2), ('X', 3)]

def cexC1 : Board :=
  match playAdds b44 cexC1moves with
  | Except.ok b => b
  | Except.error _ => b44

theorem cexC1_eq : playAdds b44 cexC1moves = Except.ok cexC1 := rfl

/-- C1 counterexample: on this reachable board (reached by add_token
calls only, the last one a successful `add_token`), the lazy scan misses
the bottom-row `OOOO` because every column holds two tokens, so the lazy
row band `[_available_min+1, _filled_max]` no longer covers the bottom
row; the claim's unrestricted equivalence is false. -/
theorem C1_counterexample :
    Reachable cexC1 ∧ cexC1.connects 'O' true = false ∧
      cexC1.connects 'O' false = true :=
  ⟨reachable_playAdds cexC1moves b44 cexC1 b44_reachable cexC1_eq,
    by decide, by decide⟩

/-- Witness for C1 at the empty 4×4 board with an `'O'` added to
column 0. -/
theorem C1_witness :
    (b44.added 'O' 0).connects 'O' true =
      (b44.added 'O' 0).connects 'O' false :=
  (C1_windowed_equiv b44 b44_reachable 'O' (Or.inl rfl) (by decide)).1
    'O' 0 (b44.added 'O' 0) (by rfl)

/-! ## Search engine (`player_auto.py`, class `AutoPlayer`) -/

/-- The opponent token (`AutoPlayer.__init__`):
`"O" if token == "X" else "X"`. -/
def oppOf (token : Char) : Char := if token = 'X' then 'O' else 'X'

/-- Python `max(scores)`: keep the first element, replace whenever a later
item compares strictly greater (`item > result`, i.e. `result < item`).
Python `max` raises on an empty list; boards always have `width ≥ 4`, so
the `[]` equation is an unreachable placeholder. -/
def max_score : List Score → Score
  | [] => ⟨ScoreType.invalid, none⟩
  | s :: rest =>
      rest.foldl (fun acc x => if Score.ltb acc x then x else acc) s

/-- `AutoPlayer._get_scores_for`, by structural recursion on the search
depth.  The Python code tests `self.depth == 0` inside the per-column
loop; the depth is fixed during the loop, so the base-case branches are
duplicated across the `0` and `d + 1` equations.  The look-ahead branch
mutates the Python board in place (`add_token`, recurse, `remove_token`);
by undo-exactness (claim C2, proved above) every loop iteration sees the
board unchanged, which this functional rendering makes explicit.  The
`.error` fallback is unreachable: `can_add_to` was just checked and the
player's token is validated at construction. -/
def scoresFor : Nat → Char → Board → List Score
  | 0, token, b =>
    (List.range b.width).map fun col =>
      if b.can_add_to col = false then ⟨ScoreType.invalid, none⟩
      else if b.connects (oppOf token) true then
        ⟨ScoreType.losing, some (-1)⟩
      else ⟨ScoreType.neutral, none⟩
  | d + 1, token, b =>
    (List.range b.width).map fun col =>
      if b.can_add_to col = false then ⟨ScoreType.invalid, none⟩
      else if b.connects (oppOf token) true then
        ⟨ScoreType.losing, some (-1)⟩
      else
        match b.add_token token col with
        | Except.ok b' =>
            (max_score (scoresFor d (oppOf token) b')).reverseScore
        | Except.error _ => ⟨ScoreType.invalid, none⟩

/-- The per-decision state of `AutoPlayer`: its token and fixed search
depth. -/
structure AutoPlayer where
  token : Char
  depth : Nat

/-- The deterministic part of `AutoPlayer.get_next_move`: the recorded
maximum score (`self._set_score(max_score)`) and the candidate columns
(`[i for i in range(board.width) if scores[i] == max_score]`) among which
`random.choice` picks.  `get_next_move` returns an arbitrary element of
the candidate list; `random.choice` fails only on an empty list. -/
def AutoPlayer.decision (p : AutoPlayer) (b : Board) : Score × List Nat :=
  let scores := scoresFor p.depth p.token b
  let m := max_score scores
  (m, (List.range b.width).filter fun i =>
    Score.eqb (scores.getD i ⟨ScoreType.invalid, none⟩) m)

theorem getD_map_range {β : Type} (f : Nat → β) (d : β) {n col : Nat}
    (h : col < n) : ((List.range n).map f).getD col d = f col := by
  have hlen : col < ((List.range n).map f).length := by simpa using h
  rw [List.getD_eq_getElem _ _ hlen]
  simp

theorem scoresFor_length (depth : Nat) (token : Char) (b : Board) :
    (scoresFor depth token b).length = b.width := by
  cases depth <;> simp [scoresFor]

theorem scoresFor_entry_not_addable {depth : Nat} {token : Char} {b : Board}
    {col : Nat} (hcol : col < b.width) (hcan : b.can_add_to col = false) :
    (scoresFor depth token b).getD col ⟨ScoreType.invalid, none⟩ =
      ⟨ScoreType.invalid, none⟩ := by
  cases depth with
  | zero =>
    simp only [scoresFor]
    rw [getD_map_range _ _ hcol]
    simp [hcan]
  | succ d =>
    simp only [scoresFor]
    rw [getD_map_range _ _ hcol]
    simp [hcan]

theorem scoresFor_entry_losing {depth : Nat} {token : Char} {b : Board}
    {col : Nat} (hcol : col < b.width) (hcan : b.can_add_to col = true)
    (hconn : b.connects (oppOf token) true = true) :
    (scoresFor depth token b).getD col ⟨ScoreType.invalid, none⟩ =
      ⟨ScoreType.losing, some (-1)⟩ := by
  cases depth with
  | zero =>
    simp only [scoresFor]
    rw [getD_map_range _ _ hcol]
    simp [hcan, hconn]
  | succ d =>
    simp only [scoresFor]
    rw [getD_map_range _ _ hcol]
    simp [hcan, hconn]

theorem scoresFor_entry_neutral {token : Char} {b : Board}
    {col : Nat} (hcol : col < b.width) (hcan : b.can_add_to col = true)
    (hconn : b.connects (oppOf token) true = false) :
    (scoresFor 0 token b).getD col ⟨ScoreType.invalid, none⟩ =
      ⟨ScoreType.neutral, none⟩ := by
  simp only [scoresFor]
  rw [getD_map_range _ _ hcol]
  simp [hcan, hconn]

/-- C9: the per-column score array satisfies the base cases of the
search: `Invalid` for unplayable columns; `Losing(-1)` for a playable
column when the opponent already connects four (windowed check, on the
board as received); `Neutral` for a playable column at depth 0 when the
opponent does not. -/
theorem C9_scores_base_cases :
    ∀ (depth : Nat) (token : Char) (b : Board) (col : Nat), col < b.width →
      (b.can_add_to col = false →
        (scoresFor depth token b).getD col ⟨ScoreType.invalid, none⟩ =
          ⟨ScoreType.invalid, none⟩) ∧
      (b.can_add_to col = true → b.connects (oppOf token) true = true →
        (scoresFor depth token b).getD col ⟨ScoreType.invalid, none⟩ =
          ⟨ScoreType.losing, some (-1)⟩) ∧
      (b.can_add_to col = true → b.connects (oppOf token) true = false →
        depth = 0 →
        (scoresFor depth token b).getD col ⟨ScoreType.invalid, none⟩ =
          ⟨ScoreType.neutral, none⟩) := by
  intro depth token b col hcol
  refine ⟨fun hcan => scoresFor_entry_not_addable hcol hcan,
    fun hcan hconn => scoresFor_entry_losing hcol hcan hconn,
    fun hcan hconn h0 => ?_⟩
  subst h0
  exact scoresFor_entry_neutral hcol hcan hconn

/-- Witness for C9: on the empty 4×4 board at depth 0, column 0 scores
`Neutral`. -/
theorem C9_witness :
    (scoresFor 0 'O' b44).getD 0 ⟨ScoreType.invalid, none⟩ =
      ⟨ScoreType.neutral, none⟩ :=
  (C9_scores_base_cases 0 'O' b44 0 (by decide)).2.2 (by decide) (by decide)
    rfl

theorem foldl_step_const {s : Score} (hs : Score.ltb s s = false) :
    ∀ rest : List Score, (∀ x ∈ rest, x = s) →
      rest.foldl (fun acc x => if Score.ltb acc x then x else acc) s = s := by
  intro rest
  induction rest with
  | nil => intro _; rfl
  | cons a xs ih =>
    intro hall
    rw [List.foldl_cons]
    have ha : a = s := hall a (List.mem_cons_self _ _)
    subst ha
    rw [if_neg (by rw [hs]; simp)]
    exact ih fun x hx => hall x (List.mem_cons_of_mem _ hx)

theorem max_score_const {s : Score} (hs : Score.ltb s s = false)
    {l : List Score} (hall : ∀ x ∈ l, x = s) (hne : l ≠ []) :
    max_score l = s := by
  cases l with
  | nil => exact absurd rfl hne
  | cons a rest =>
    have ha : a = s := hall a (List.mem_cons_self _ _)
    subst ha
    exact foldl_step_const hs rest
      fun x hx => hall x (List.mem_cons_of_mem _ hx)

theorem scoresFor_all_invalid {depth : Nat} {token : Char} {b : Board}
    (hall : ∀ c : Nat, c < b.width → b.can_add_to c = false) :
    ∀ x ∈ scoresFor depth token b, x = ⟨ScoreType.invalid, none⟩ := by
  intro x hx
  cases depth with
  | zero =>
    simp only [scoresFor] at hx
    obtain ⟨col, hcol, rfl⟩ := List.mem_map.mp hx
    rw [List.mem_range] at hcol
    simp [hall col hcol]
  | succ d =>
    simp only [scoresFor] at hx
    obtain ⟨col, hcol, rfl⟩ := List.mem_map.mp hx
    rw [List.mem_range] at hcol
    simp [hall col hcol]

/-- C3 (amended): when no column is playable, `get_next_move` does not
fail: every per-column score is `Invalid`, the recorded maximum is
`Invalid`, and the candidate list passed to `random.choice` is every
column of the board (in particular nonempty), from which a uniformly
random column is returned.  The spec's `NoLegalMove` failure does not
exist in the code. -/
theorem C3_no_legal_move :
    ∀ (p : AutoPlayer) (b : Board), 0 < b.width →
      (∀ c : Nat, c < b.width → b.can_add_to c = false) →
      (p.decision b).1 = ⟨ScoreType.invalid, none⟩ ∧
      (p.decision b).2 = List.range b.width ∧
      (p.decision b).2 ≠ [] := by
  intro p b hw hall
  have hd1 : (p.decision b).1 = max_score (scoresFor p.depth p.token b) :=
    rfl
  have hd2 : (p.decision b).2 = (List.range b.width).filter fun i =>
      Score.eqb ((scoresFor p.depth p.token b).getD i
        ⟨ScoreType.invalid, none⟩)
        (max_score (scoresFor p.depth p.token b)) := rfl
  have hinv := @scoresFor_all_invalid p.depth p.token b hall
  have hne : scoresFor p.depth p.token b ≠ [] := by
    intro h
    have := scoresFor_length p.depth p.token b
    rw [h] at this
    simp at this
    omega
  have hmax : max_score (scoresFor p.depth p.token b) =
      ⟨ScoreType.invalid, none⟩ :=
    max_score_const (by decide) hinv hne
  have hgetD : ∀ i : Nat, i < b.width →
      (scoresFor p.depth p.token b).getD i ⟨ScoreType.invalid, none⟩ =
        ⟨ScoreType.invalid, none⟩ := by
    intro i hi
    have hil : i < (scoresFor p.depth p.token b).length := by
      rw [scoresFor_length]
      exact hi
    rw [List.getD_eq_getElem _ _ hil]
    exact hinv _ (List.getElem_mem _)
  refine ⟨by rw [hd1, hmax], ?_, ?_⟩
  · rw [hd2]
    apply List.filter_eq_self.mpr
    intro i hi
    rw [List.mem_range] at hi
    rw [hgetD i hi, hmax]
    exact Score.eqb_refl _
  · rw [hd2]
    intro h
    have h0 : (0 : Nat) ∈ (List.range b.width).filter fun i =>
        Score.eqb ((scoresFor p.depth p.token b).getD i
          ⟨ScoreType.invalid, none⟩)
          (max_score (scoresFor p.depth p.token b)) := by
      rw [List.mem_filter]
      refine ⟨List.mem_range.mpr hw, ?_⟩
      rw [hgetD 0 hw, hmax]
      exact Score.eqb_refl _
    rw [h] at h0
    cases h0

/-- A completely full (reachable) 4×4 board: each column holds
`O X O X` bottom to top. -/
def cexC3moves : List (Char × Nat) :=
  [('O', 0), ('X', 0), ('O', 0), ('X', 0),
   ('O', 1), ('X', 1), ('O', 1), ('X', 1),
   ('O', 2), ('X', 2), ('O', 2), ('X', 2),
   ('O', 3), ('X', 3), ('O', 3), ('X', 3)]

def cexC3 : Board :=
  match playAdds b44 cexC3moves with
  | Except.ok b => b
  | Except.error _ => b44

theorem cexC3_eq : playAdds b44 cexC3moves = Except.ok cexC3 := rfl

/-- C3 counterexample: on this full reachable board no column is playable
(`is_full` holds), yet the decision computed by `get_next_move` carries
the nonempty candidate list `[0, 1, 2, 3]` — `random.choice` then returns
one of these columns; no `NoLegalMove` error is raised (none exists in
the code). -/
theorem C3_counterexample :
    Reachable cexC3 ∧ cexC3.is_full = true ∧
      (AutoPlayer.decision ⟨'O', 3⟩ cexC3).2 = [0, 1, 2, 3] ∧
      (AutoPlayer.decision ⟨'O', 3⟩ cexC3).1 = ⟨ScoreType.invalid, none⟩ :=
  ⟨reachable_playAdds cexC3moves b44 cexC3 b44_reachable cexC3_eq,
    by decide, by decide, by decide⟩

/-- Witness for C3 on the full board above. -/
theorem C3_witness :
    (AutoPlayer.decision ⟨'X', 2⟩ cexC3).1 = ⟨ScoreType.invalid, none⟩ ∧
    (AutoPlayer.decision ⟨'X', 2⟩ cexC3).2 = List.range 4 ∧
    (AutoPlayer.decision ⟨'X', 2⟩ cexC3).2 ≠ [] :=
  C3_no_legal_move ⟨'X', 2⟩ cexC3 (by decide) (by decide)

theorem Score.ltb_of_lt_of_ge {x y z : Score} (h1 : Score.ltb x y = true)
    (h2 : Score.ltb z y = false) : Score.ltb x z = true := by
  rw [Score.ltb_iff] at h1 ⊢
  rw [Score.ltb_eq_false_iff] at h2
  omega

theorem foldl_step_ge_init :
    ∀ (rest : List Score) (a : Score),
      Score.ltb (rest.foldl
        (fun acc x => if Score.ltb acc x then x else acc) a) a = false := by
  intro rest
  induction rest with
  | nil => intro a; exact Score.ltb_irrefl a
  | cons s xs ih =>
    intro a
    rw [List.foldl_cons]
    by_cases has : Score.ltb a s = true
    · rw [if_pos has]
      cases hres : Score.ltb (xs.foldl
          (fun acc x => if Score.ltb acc x then x else acc) s) a
      · rfl
      · exfalso
        have hgs := ih s
        have := Score.ltb_of_lt_of_ge hres (Score.ltb_asymm has)
        rw [this] at hgs
        exact absurd hgs (by simp)
    · rw [if_neg has]
      exact ih a

theorem foldl_step_ge_mem :
    ∀ (rest : List Score) (a x : Score), x ∈ rest →
      Score.ltb (rest.foldl
        (fun acc x => if Score.ltb acc x then x else acc) a) x = false := by
  intro rest
  induction rest with
  | nil => intro a x hx; cases hx
  | cons s xs ih =>
    intro a x hx
    rw [List.foldl_cons]
    rcases List.mem_cons.mp hx with rfl | hmem
    · by_cases has : Score.ltb a x = true
      · rw [if_pos has]
        exact foldl_step_ge_init xs x
      · rw [if_neg has]
        cases hres : Score.ltb (xs.foldl
            (fun acc y => if Score.ltb acc y then y else acc) a) x
        · rfl
        · exfalso
          have hga := foldl_step_ge_init xs a
          have := Score.ltb_of_lt_of_ge hres
            (by cases h : Score.ltb a x; rfl; exact absurd h has)
          rw [this] at hga
          exact absurd hga (by simp)
    · rw [show (if Score.ltb a s then s else a) =
        (fun acc y => if Score.ltb acc y then y else acc) a s from rfl]
      exact ih _ x hmem

theorem max_score_not_lt {l : List Score} {x : Score} (hx : x ∈ l) :
    Score.ltb (max_score l) x = false := by
  cases l with
  | nil => cases hx
  | cons a rest =>
    rcases List.mem_cons.mp hx with rfl | hmem
    · exact foldl_step_ge_init rest x
    · exact foldl_step_ge_mem rest a x hmem

theorem Score.not_lt_of_eq_of_ge {x m y : Score}
    (hxm : Score.eqb x m = true) (hmy : Score.ltb m y = false) :
    Score.ltb x y = false := by
  rw [Score.eqb_iff] at hxm
  rw [Score.ltb_eq_false_iff] at hmy ⊢
  omega

theorem Score.eqb_eq_false_of_ltb {x y : Score}
    (h : Score.ltb x y = true) : Score.eqb x y = false := by
  rw [Score.ltb_iff] at h
  rw [Score.eqb_eq_false_iff]
  omega

/-- C5: whenever at least one column is playable, every column the
decision can return (any member of the candidate list handed to
`random.choice`) scores equal to the recorded maximum and is not beaten
by any other column's score; a column scoring strictly below the maximum
is never in the candidate list. -/
theorem C5_best_column_only :
    ∀ (p : AutoPlayer) (b : Board),
      (∃ c : Nat, c < b.width ∧ b.can_add_to c = true) →
      (∀ col ∈ (p.decision b).2,
        Score.eqb ((scoresFor p.depth p.token b).getD col
          ⟨ScoreType.invalid, none⟩) (p.decision b).1 = true ∧
        (∀ j : Nat, j < b.width →
          Score.ltb ((scoresFor p.depth p.token b).getD col
            ⟨ScoreType.invalid, none⟩)
            ((scoresFor p.depth p.token b).getD j
              ⟨ScoreType.invalid, none⟩) = false)) ∧
      (∀ col : Nat, col < b.width →
        Score.ltb ((scoresFor p.depth p.token b).getD col
          ⟨ScoreType.invalid, none⟩) (p.decision b).1 = true →
        col ∉ (p.decision b).2) := by
  intro p b _
  have hd2 : (p.decision b).2 = (List.range b.width).filter fun i =>
      Score.eqb ((scoresFor p.depth p.token b).getD i
        ⟨ScoreType.invalid, none⟩)
        (max_score (scoresFor p.depth p.token b)) := rfl
  have hgetD_mem : ∀ j : Nat, j < b.width →
      (scoresFor p.depth p.token b).getD j ⟨ScoreType.invalid, none⟩ ∈
        scoresFor p.depth p.token b := by
    intro j hj
    have hjl : j < (scoresFor p.depth p.token b).length := by
      rw [scoresFor_length]
      exact hj
    rw [List.getD_eq_getElem _ _ hjl]
    exact List.getElem_mem _
  constructor
  · intro col hcol
    rw [hd2] at hcol
    obtain ⟨hrange, hpred⟩ := List.mem_filter.mp hcol
    refine ⟨hpred, ?_⟩
    intro j hj
    exact Score.not_lt_of_eq_of_ge hpred
      (max_score_not_lt (hgetD_mem j hj))
  · intro col _ hlt hmem
    rw [hd2] at hmem
    obtain ⟨-, hpred⟩ := List.mem_filter.mp hmem
    have hfalse := Score.eqb_eq_false_of_ltb hlt
    have hd1 : (p.decision b).1 =
        max_score (scoresFor p.depth p.token b) := rfl
    rw [hd1, hpred] at hfalse
    exact absurd hfalse (by simp)

/-- Witness for C5: on the empty 4×4 board with depth 0, column 0 is a
candidate and its score equals the recorded maximum. -/
theorem C5_witness :
    Score.eqb ((scoresFor 0 'O' b44).getD 0 ⟨ScoreType.invalid, none⟩)
      ((AutoPlayer.decision ⟨'O', 0⟩ b44).1) = true :=
  ((C5_best_column_only ⟨'O', 0⟩ b44 ⟨0, by decide, by decide⟩).1 0
    (by decide)).1

/-- `Board._add_tokens` body: add tokens at the listed columns, flipping
the token each step (`token = "O" if token == "X" else "X"`). -/
def addTokensFrom (b : Board) (token : Char) (cols : List Nat) :
    Except String Board :=
  match cols with
  | [] => Except.ok b
  | c :: rest =>
    match b.add_token token c with
    | Except.ok b' => addTokensFrom b' (oppOf token) rest
    | Except.error e => Except.error e

/-- `Board._add_tokens`: alternating tokens starting with `'O'`. -/
def addTokens (b : Board) (cols : List Nat) : Except String Board :=
  addTokensFrom b 'O' cols

/-- The freshly constructed 7×6 board. -/
def b76 : Board :=
  { width := 7
    height := 6
    config := fun _ _ => ' '
    available_rows := List.replicate 7 ((6 : Int) - 1)
    available_min := (6 : Int) - 1
    filled_max := (6 : Int) }

/-- The board of the immediate-win scenario: 7×6, tokens placed at
columns `[0,4,1,2,2,5,4,4,1,1,4]` alternating starting with `'O'`.
Six `'O'`s and five `'X'`s are on the board, so `'X'` is to move. -/
def c8Board : Board :=
  match addTokens b76 [0, 4, 1, 2, 2, 5, 4, 4, 1, 1, 4] with
  | Except.ok b => b
  | Except.error _ => b76

set_option maxRecDepth 100000 in
set_option maxHeartbeats 16000000 in
theorem c8_decision_X :
    AutoPlayer.decision ⟨'X', 3⟩ c8Board =
      (⟨ScoreType.winning, some 0⟩, [3]) := by decide

set_option maxRecDepth 100000 in
set_option maxHeartbeats 16000000 in
theorem c8_decision_O :
    AutoPlayer.decision ⟨'O', 3⟩ c8Board =
      (⟨ScoreType.winning, some 1⟩, [3]) := by decide

/-- C8 counterexample: the player to move on the scenario board is `'X'`
(six `'O'` tokens versus five `'X'` tokens); a depth-3 decision for `'X'`
returns column 3 deterministically but records `Winning(0)`, which is not
`Score`-equal to the `Winning(1)` the claim states. -/
theorem C8_counterexample :
    AutoPlayer.decision ⟨'X', 3⟩ c8Board =
      (⟨ScoreType.winning, some 0⟩, [3]) ∧
    Score.eqb ⟨ScoreType.winning, some 0⟩ ⟨ScoreType.winning, some 1⟩ =
      false :=
  ⟨c8_decision_X, by decide⟩

/-- C8 (amended): on the scenario board the depth-3 decision for the
player to move (`'X'`) is column 3 — the candidate list is exactly
`[3]`, so every outcome of the random tie-breaker returns 3 — with
recorded score `Winning(0)`.  (The spec's `Winning(1)` is the recorded
score of a depth-3 search for `'O'`, the player who moved first and is
not to move; that search also returns column 3.) -/
theorem C8_immediate_win :
    AutoPlayer.decision ⟨'X', 3⟩ c8Board =
      (⟨ScoreType.winning, some 0⟩, [3]) ∧
    AutoPlayer.decision ⟨'O', 3⟩ c8Board =
      (⟨ScoreType.winning, some 1⟩, [3]) :=
  ⟨c8_decision_X, c8_decision_O⟩
